import Mathlib

/-!
Verification of the AVL tree implementation in src/avltree.h (class avltree)
and src/optional.h (struct optional), instantiated at K = Nat, V = Nat.

Modelling notes.
The C++ tree is a pointer structure with parent back-references; mutation is
in place.  We embed it as an inductive tree together with a zipper path: the
path plays the role of the parent chain, so the upward retrace loops of
avltree.h become recursion on the path, and reattaching a rotated subtree
into the grandparent slot (avltree.h:525-533) is the plug operation.  The
node fields key, value, balance_factor, left_child, right_child are carried
verbatim; balance_factor is an int8_t whose reachable values stay in
[-1, 1], so Int models it without wrap.

The C++ helper node::is_left_child (avltree.h:616-627) answers by comparing
keys with the parent slot, which coincides with actual slot identity on every
duplicate-key-free tree (all trees the theorems below touch); for nodes still
attached to their parent we therefore read the side off the zipper frame.
The single call made on a node already detached from its parent
(avltree.h:228, inside two-child removal) is kept as the literal key
comparison, because there the comparison is against the node that replaced
the successor and its outcome matters even on duplicate-free trees.

A null shared_ptr dereference in the C++ (e.g. avltree.h:409 reading
left_child->balance_factor when left_child is null) is undefined behaviour;
operations return Option Tree and such a dereference yields none.
-/

namespace AvlSpec

/-- A node of avltree (avltree.h:69-105): key, value, balance_factor and the
two child subtrees; leaf stands for a null child pointer. -/
inductive Tree where
  | leaf : Tree
  | node (left_child : Tree) (key : Nat) (value : Nat) (balance_factor : Int)
      (right_child : Tree) : Tree
deriving DecidableEq

/-- Zipper context: the chain of ancestors of a focused subtree, innermost
frame first.  inLeft k v bf r p means the focus is the left child of a node
with fields (k, v, bf) whose right child is r; inRight is symmetric.  This
models the parent weak pointers of avltree.h:79. -/
inductive Path where
  | top : Path
  | inLeft (key : Nat) (value : Nat) (balance_factor : Int) (right_child : Tree)
      (p : Path) : Path
  | inRight (left_child : Tree) (key : Nat) (value : Nat) (balance_factor : Int)
      (p : Path) : Path
deriving DecidableEq

/-- Rebuild the whole tree from a focused subtree and its ancestor chain. -/
def plug : Tree → Path → Tree
  | t, Path.top => t
  | t, Path.inLeft k v bf r p => plug (Tree.node t k v bf r) p
  | t, Path.inRight l k v bf p => plug (Tree.node l k v bf t) p

/-- balance_factor field of a node (0 for a null pointer; never read on null
in the modelled paths). -/
def bf_of : Tree → Int
  | Tree.leaf => 0
  | Tree.node _ _ _ b _ => b

/-- key field of a node (0 for a null pointer; never read on null in the
modelled paths). -/
def key_of : Tree → Nat
  | Tree.leaf => 0
  | Tree.node _ k _ _ _ => k

/-- avltree::_left_rotate (avltree.h:512-548) as a function on the focused
subtree: the right child R becomes the root, the old root N becomes R's left
child, R's former left child (the orphan) becomes N's right child, and the
two balance factors are reassigned by the two-case table at avltree.h:537-546.
Reattachment to the grandparent is done by the caller via plug.  A null
right child would be dereferenced by the C++ (avltree.h:518): none. -/
def left_rotate : Tree → Option Tree
  | Tree.node l k v bf (Tree.node rl rk rv _ rr) =>
      if bf = 0 then
        some (Tree.node (Tree.node l k v 1 rl) rk rv (-1) rr)
      else
        some (Tree.node (Tree.node l k v 0 rl) rk rv 0 rr)
  | _ => none

/-- avltree::_right_rotate (avltree.h:550-586), mirror of left_rotate. -/
def right_rotate : Tree → Option Tree
  | Tree.node (Tree.node ll lk lv _ lr) k v bf r =>
      if bf = 0 then
        some (Tree.node ll lk lv 1 (Tree.node lr k v (-1) r))
      else
        some (Tree.node ll lk lv 0 (Tree.node lr k v 0 r))
  | _ => none

/-- avltree::_left_right_rotate (avltree.h:588-596): left-rotate the left
child, then right-rotate the root. -/
def left_right_rotate : Tree → Option Tree
  | Tree.node l k v bf r =>
      (left_rotate l).bind (fun l2 => right_rotate (Tree.node l2 k v bf r))
  | Tree.leaf => none

/-- avltree::_right_left_rotate (avltree.h:598-606): right-rotate the right
child, then left-rotate the root. -/
def right_left_rotate : Tree → Option Tree
  | Tree.node l k v bf r =>
      (right_rotate r).bind (fun r2 => left_rotate (Tree.node l k v bf r2))
  | Tree.leaf => none

/-- The iterative descent of avltree::_node_search (avltree.h:279-302),
accumulating the zipper context: descend left when key < current key (if the
left child exists), right when key > current key (if the right child exists),
stop on equality or on a missing child in the required direction. -/
def search_go (k : Nat) : Tree → Path → Tree × Path
  | Tree.leaf, p => (Tree.leaf, p)
  | Tree.node l ky v bf r, p =>
      if k < ky then
        match l with
        | Tree.leaf => (Tree.node l ky v bf r, p)
        | Tree.node a b c d e =>
            search_go k (Tree.node a b c d e) (Path.inLeft ky v bf r p)
      else if ky < k then
        match r with
        | Tree.leaf => (Tree.node l ky v bf r, p)
        | Tree.node a b c d e =>
            search_go k (Tree.node a b c d e) (Path.inRight l ky v bf p)
      else (Tree.node l ky v bf r, p)

/-- avltree::_node_search (avltree.h:279-302): null for the empty tree,
otherwise the located node with its context. -/
def node_search (t : Tree) (k : Nat) : Option (Tree × Path) :=
  match t with
  | Tree.leaf => none
  | Tree.node a b c d e => some (search_go k (Tree.node a b c d e) Path.top)

/-- avltree::_retrace_insertion (avltree.h:304-387): walk from the inserted
node toward the root.  cur is the node called current in the loop; the head
frame of the path is its parent.  Rotations end the walk (the C++ returns);
otherwise the parent balance factor moves one step toward the side of cur
and the walk stops when it reaches 0. -/
def retrace_insertion : Tree → Path → Option Tree
  | cur, Path.top => some cur
  | cur, Path.inLeft k v bf r p =>
      if bf = 1 then
        if bf_of cur = -1 then
          (left_right_rotate (Tree.node cur k v bf r)).map (fun t => plug t p)
        else
          (right_rotate (Tree.node cur k v bf r)).map (fun t => plug t p)
      else
        if bf + 1 = 0 then some (plug (Tree.node cur k v (bf + 1) r) p)
        else retrace_insertion (Tree.node cur k v (bf + 1) r) p
  | cur, Path.inRight l k v bf p =>
      if bf = -1 then
        if bf_of cur = 1 then
          (right_left_rotate (Tree.node l k v bf cur)).map (fun t => plug t p)
        else
          (left_rotate (Tree.node l k v bf cur)).map (fun t => plug t p)
      else
        if bf - 1 = 0 then some (plug (Tree.node l k v (bf - 1) cur) p)
        else retrace_insertion (Tree.node l k v (bf - 1) cur) p

/-- The upward loop of avltree::_retrace_deletion (avltree.h:440-509). -/
def retrace_deletion_loop : Tree → Path → Option Tree
  | cur, Path.top => some cur
  | cur, Path.inLeft k v bf r p =>
      if bf = -1 then
        if bf_of cur = -1 then
          (left_rotate (Tree.node cur k v bf r)).map (fun t => plug t p)
        else
          (right_left_rotate (Tree.node cur k v bf r)).map (fun t => plug t p)
      else
        if bf - 1 = 0 then some (plug (Tree.node cur k v (bf - 1) r) p)
        else retrace_deletion_loop (Tree.node cur k v (bf - 1) r) p
  | cur, Path.inRight l k v bf p =>
      if bf = 1 then
        if bf_of cur = 1 then
          (right_rotate (Tree.node l k v bf cur)).map (fun t => plug t p)
        else
          (left_right_rotate (Tree.node l k v bf cur)).map (fun t => plug t p)
      else
        if bf + 1 = 0 then some (plug (Tree.node l k v (bf + 1) cur) p)
        else retrace_deletion_loop (Tree.node l k v (bf + 1) cur) p

/-- avltree::_retrace_deletion (avltree.h:389-510).  change is the
balance_factor_change argument: -LEFT_HEAVY = -1 when a left child was
removed below the subtree root, -RIGHT_HEAVY = +1 for a right child.  First
the direct cases at the subtree root (avltree.h:397-434): a balanced root
just absorbs the change; an overshoot (|bf + change| > 1) triggers one
rotation chosen by the child balance factor and then returns (avltree.h:433)
without continuing upward.  Otherwise the upward loop runs; the C++ does
not reset the subtree root balance factor before entering it. -/
def retrace_deletion (cur : Tree) (p : Path) (change : Int) : Option Tree :=
  match cur with
  | Tree.leaf => none
  | Tree.node l k v bf r =>
      if bf = 0 then some (plug (Tree.node l k v (bf + change) r) p)
      else if bf + change ≠ 0 then
        if change = 1 then
          match l with
          | Tree.leaf => none
          | Tree.node _ _ _ lbf _ =>
              if lbf = 1 then
                (right_rotate (Tree.node l k v bf r)).map (fun t => plug t p)
              else
                (left_right_rotate (Tree.node l k v bf r)).map (fun t => plug t p)
        else
          match r with
          | Tree.leaf => none
          | Tree.node _ _ _ rbf _ =>
              if rbf = -1 then
                (left_rotate (Tree.node l k v bf r)).map (fun t => plug t p)
              else
                (right_left_rotate (Tree.node l k v bf r)).map (fun t => plug t p)
      else retrace_deletion_loop (Tree.node l k v bf r) p

/-- avltree::insert (avltree.h:153-172): empty tree gets a fresh root;
an exact key match overwrites the value in place; otherwise a fresh leaf is
attached on the side given by the comparison and insertion retrace runs from
the new node. -/
def insert (t : Tree) (k v : Nat) : Option Tree :=
  match t with
  | Tree.leaf => some (Tree.node Tree.leaf k v 0 Tree.leaf)
  | Tree.node a b c d e =>
      match search_go k (Tree.node a b c d e) Path.top with
      | (Tree.leaf, _) => none
      | (Tree.node cl ck cv cbf cr, p) =>
          if ck = k then some (plug (Tree.node cl ck v cbf cr) p)
          else if k < ck then
            retrace_insertion (Tree.node Tree.leaf k v 0 Tree.leaf)
              (Path.inLeft ck cv cbf cr p)
          else
            retrace_insertion (Tree.node Tree.leaf k v 0 Tree.leaf)
              (Path.inRight cl ck cv cbf p)

/-- struct optional of src/optional.h at T = Nat: a payload field and a flag.
The value-less constructor (optional.h:16) leaves the payload
default-constructed, modelled by 0 = default : Nat. -/
structure Opt where
  val : Nat
  has_value : Bool
deriving DecidableEq

/-- optional<V>() — constructed without a value (optional.h:16). -/
def Opt.none_ : Opt := ⟨0, false⟩

/-- optional<V>(value) — constructed with a value (optional.h:19). -/
def Opt.some_ (v : Nat) : Opt := ⟨v, true⟩

/-- avltree::get (avltree.h:174-182): search, and return the value exactly
when a node with the key was found. -/
def get (t : Tree) (k : Nat) : Opt :=
  match node_search t k with
  | none => Opt.none_
  | some (Tree.leaf, _) => Opt.none_
  | some (Tree.node _ ck cv _ _, _) =>
      if k = ck then Opt.some_ cv else Opt.none_

/-- Key and value of the in-order successor: the loop at avltree.h:203-204
descending to the leftmost node of the right subtree. -/
def leftmost_kv : Tree → Nat × Nat
  | Tree.leaf => (0, 0)
  | Tree.node Tree.leaf k v _ _ => (k, v)
  | Tree.node (Tree.node a b c d e) _ _ _ _ => leftmost_kv (Tree.node a b c d e)

/-- Descend to the parent of the leftmost node (the in-order successor) and
detach the successor, putting its right child into the vacated slot
(avltree.h:207-224); returns the rewritten parent node with its context.
Called on a subtree whose left child exists. -/
def detach_loc : Tree → Path → Option (Tree × Path)
  | Tree.node (Tree.node Tree.leaf _ _ _ sr) k v bf r, p =>
      some (Tree.node sr k v bf r, p)
  | Tree.node (Tree.node (Tree.node a b c d e) k2 v2 b2 r2) k v bf r, p =>
      detach_loc (Tree.node (Tree.node a b c d e) k2 v2 b2 r2)
        (Path.inLeft k v bf r p)
  | _, _ => none

/-- The balance_factor_change argument computed at avltree.h:228-235: the
C++ asks successor->is_left_child() after the successor was detached, so the
key comparison runs against whatever now sits in the parent's left slot.
sk is the successor key, pn the rewritten successor parent. -/
def delta_of (sk : Nat) (pn : Tree) : Int :=
  match pn with
  | Tree.node (Tree.node _ lk _ _ _) _ _ _ _ => if lk = sk then -1 else 1
  | _ => 1

/-- avltree::remove (avltree.h:184-275).  Absent key: no-op.  Two children:
splice the in-order successor (copy its key/value into the target, detach the
successor node) and retrace from the successor parent with the delta of
delta_of.  One child: the orphan is promoted into the target slot with no
retrace (avltree.h:237-253).  No children: clear the slot and retrace from
the parent with -LEFT_HEAVY = -1 (left slot) or -RIGHT_HEAVY = +1 (right). -/
def remove (t : Tree) (k : Nat) : Option Tree :=
  match t with
  | Tree.leaf => some t
  | Tree.node a b c d e =>
      match search_go k (Tree.node a b c d e) Path.top with
      | (Tree.leaf, _) => some t
      | (Tree.node l ck _v bf r, p) =>
          if ck ≠ k then some t
          else
            match l, r with
            | Tree.leaf, Tree.leaf =>
                match p with
                | Path.top => some Tree.leaf
                | Path.inLeft k2 v2 bf2 r2 rest =>
                    retrace_deletion (Tree.node Tree.leaf k2 v2 bf2 r2) rest (-1)
                | Path.inRight l2 k2 v2 bf2 rest =>
                    retrace_deletion (Tree.node l2 k2 v2 bf2 Tree.leaf) rest 1
            | Tree.node la lb lc ld le, Tree.leaf =>
                match p with
                | Path.top => some (Tree.node la lb lc ld le)
                | Path.inLeft k2 v2 bf2 r2 rest =>
                    some (plug (Tree.node (Tree.node la lb lc ld le) k2 v2 bf2 r2) rest)
                | Path.inRight l2 k2 v2 bf2 rest =>
                    some (plug (Tree.node l2 k2 v2 bf2 (Tree.node la lb lc ld le)) rest)
            | Tree.leaf, Tree.node ra rb rc rd re =>
                match p with
                | Path.top => some (Tree.node ra rb rc rd re)
                | Path.inLeft k2 v2 bf2 r2 rest =>
                    some (plug (Tree.node (Tree.node ra rb rc rd re) k2 v2 bf2 r2) rest)
                | Path.inRight l2 k2 v2 bf2 rest =>
                    some (plug (Tree.node l2 k2 v2 bf2 (Tree.node ra rb rc rd re)) rest)
            | Tree.node la lb lc ld le, Tree.node rl rk rv rbf rr =>
                match rl with
                | Tree.leaf =>
                    let newt := Tree.node (Tree.node la lb lc ld le) rk rv bf rr
                    retrace_deletion newt p (delta_of rk newt)
                | Tree.node _ _ _ _ _ =>
                    let sk := (leftmost_kv (Tree.node rl rk rv rbf rr)).1
                    let sv := (leftmost_kv (Tree.node rl rk rv rbf rr)).2
                    match detach_loc (Tree.node rl rk rv rbf rr)
                        (Path.inRight (Tree.node la lb lc ld le) sk sv bf p) with
                    | none => none
                    | some (pn, q) => retrace_deletion pn q (delta_of sk pn)

/-- One public mutating call. -/
inductive Op where
  | ins (k v : Nat) : Op
  | del (k : Nat) : Op
deriving DecidableEq

/-- Run one call. -/
def step (t : Tree) : Op → Option Tree
  | Op.ins k v => insert t k v
  | Op.del k => remove t k

/-- Run a sequence of calls from a given tree; none as soon as a call hits
undefined behaviour. -/
def run_from (t : Tree) : List Op → Option Tree
  | [] => some t
  | op :: rest =>
      match step t op with
      | none => none
      | some t2 => run_from t2 rest

/-- Run a sequence of calls from the empty tree. -/
def run (l : List Op) : Option Tree := run_from Tree.leaf l

/-- Height as in the test helper (avltree-test-helper.h:113-121). -/
def height : Tree → Nat
  | Tree.leaf => 0
  | Tree.node l _ _ _ r => 1 + max (height l) (height r)

/-- The AVL balance check of the test helper (avltree-test-helper.h:80-95):
every node has subtree heights differing by at most one. -/
def is_avl : Tree → Bool
  | Tree.leaf => true
  | Tree.node l _ _ _ r =>
      is_avl l && is_avl r && (((height l : Int) - (height r : Int)).natAbs ≤ 1)

/-- The balance-factor check of the test helper (avltree-test-helper.h:97-104):
every stored balance_factor equals height(left) - height(right) exactly. -/
def balance_factors_exact : Tree → Bool
  | Tree.leaf => true
  | Tree.node l _ _ b r =>
      (b = (height l : Int) - (height r : Int)) && balance_factors_exact l
        && balance_factors_exact r

/-- In-order key/value enumeration. -/
def inorder : Tree → List (Nat × Nat)
  | Tree.leaf => []
  | Tree.node l k v _ r => inorder l ++ (k, v) :: inorder r

/-- In-order keys. -/
def keyList (t : Tree) : List Nat := (inorder t).map Prod.fst

/-- Node count as in the test helper (avltree-test-helper.h:27-33). -/
def count_nodes : Tree → Nat
  | Tree.leaf => 0
  | Tree.node l _ _ _ r => 1 + count_nodes l + count_nodes r

/-- Erase the value fields, keeping structure, keys and balance factors. -/
def strip_values : Tree → Tree
  | Tree.leaf => Tree.leaf
  | Tree.node l k _ b r => Tree.node (strip_values l) k 0 b (strip_values r)

/-- The key/value pairs sitting strictly to the left of the focus in the
rebuilt tree: contributions of inRight frames, outermost first. -/
def path_left : Path → List (Nat × Nat)
  | Path.top => []
  | Path.inLeft _ _ _ _ p => path_left p
  | Path.inRight l k v _ p => path_left p ++ inorder l ++ [(k, v)]

/-- The key/value pairs sitting strictly to the right of the focus in the
rebuilt tree: contributions of inLeft frames, innermost first. -/
def path_right : Path → List (Nat × Nat)
  | Path.top => []
  | Path.inLeft k v _ r p => (k, v) :: inorder r ++ path_right p
  | Path.inRight _ _ _ _ p => path_right p

/-- Rebuild the tree that a _node_search result still references: the search
hands back a node and its context (or null on the empty tree) and touches
nothing, so plugging the location together is the state of the tree after
the call. -/
def reconstruct : Option (Tree × Path) → Tree
  | none => Tree.leaf
  | some (c, q) => plug c q

/-- Remove the leftmost node of a subtree, promoting its right child: the
net structural effect of detaching the in-order successor
(avltree.h:207-224) viewed from the subtree root. -/
def drop_leftmost : Tree → Tree
  | Tree.leaf => Tree.leaf
  | Tree.node Tree.leaf _ _ _ r => r
  | Tree.node (Tree.node a b c d e) k v bf r =>
      Tree.node (drop_leftmost (Tree.node a b c d e)) k v bf r

/-- Strictly increasing keys along a key/value list. -/
def sorted_kv (l : List (Nat × Nat)) : Prop :=
  List.Pairwise (fun a b => a.1 < b.1) l

instance (l : List (Nat × Nat)) : Decidable (sorted_kv l) := by
  unfold sorted_kv; infer_instance


/-! ### Manual equation lemmas for search_go -/

theorem search_go_lt_stop {k ky v : Nat} {bf : Int} {r : Tree} {p : Path} (h1 : k < ky) :
    search_go k (Tree.node Tree.leaf ky v bf r) p = (Tree.node Tree.leaf ky v bf r, p) := by
  unfold search_go; simp [h1]

theorem search_go_lt_go {k ky v : Nat} {bf : Int} {r : Tree} {p : Path} {a : Tree} {b c : Nat}
    {d : Int} {e : Tree} (h1 : k < ky) :
    search_go k (Tree.node (Tree.node a b c d e) ky v bf r) p
      = search_go k (Tree.node a b c d e) (Path.inLeft ky v bf r p) := by
  conv_lhs => unfold search_go
  simp [h1]

theorem search_go_gt_stop {k ky v : Nat} {bf : Int} {l : Tree} {p : Path} (h1 : ¬ k < ky)
    (h2 : ky < k) :
    search_go k (Tree.node l ky v bf Tree.leaf) p = (Tree.node l ky v bf Tree.leaf, p) := by
  unfold search_go; simp [h1, h2]

theorem search_go_gt_go {k ky v : Nat} {bf : Int} {l : Tree} {p : Path} {a : Tree} {b c : Nat}
    {d : Int} {e : Tree} (h1 : ¬ k < ky) (h2 : ky < k) :
    search_go k (Tree.node l ky v bf (Tree.node a b c d e)) p
      = search_go k (Tree.node a b c d e) (Path.inRight l ky v bf p) := by
  conv_lhs => unfold search_go
  simp [h1, h2]

theorem search_go_found {k ky v : Nat} {bf : Int} {l r : Tree} {p : Path} (h1 : ¬ k < ky)
    (h2 : ¬ ky < k) :
    search_go k (Tree.node l ky v bf r) p = (Tree.node l ky v bf r, p) := by
  unfold search_go; simp [h1, h2]

/-! ### Inorder decomposition and search reconstruction -/

theorem inorder_plug : ∀ (p : Path) (t : Tree),
    inorder (plug t p) = path_left p ++ inorder t ++ path_right p
  | Path.top, t => by simp [plug, path_left, path_right]
  | Path.inLeft k v bf r p, t => by
      simp [plug, path_left, path_right, inorder_plug p, inorder]
  | Path.inRight l k v bf p, t => by
      simp [plug, path_left, path_right, inorder_plug p, inorder]

theorem search_go_plug (k : Nat) : ∀ (t : Tree) (p : Path),
    plug (search_go k t p).1 (search_go k t p).2 = plug t p := by
  intro t
  induction t with
  | leaf => intro p; simp [search_go]
  | node l ky v bf r ihl ihr =>
      intro p
      by_cases h1 : k < ky
      · cases l with
        | leaf => rw [search_go_lt_stop h1]
        | node a b c d e =>
            rw [search_go_lt_go h1]
            exact ihl (Path.inLeft ky v bf r p)
      · by_cases h2 : ky < k
        · cases r with
          | leaf => rw [search_go_gt_stop h1 h2]
          | node a b c d e =>
              rw [search_go_gt_go h1 h2]
              exact ihr (Path.inRight l ky v bf p)
        · rw [search_go_found h1 h2]

/-- The node that _node_search stops at is a real node of the tree, and the
stop happened either on an exact key match or at a node missing the child on
the search side. -/
theorem search_shape (k : Nat) : ∀ (t : Tree), t ≠ Tree.leaf → ∀ (p : Path),
    ∃ cl ck cv cbf cr q, search_go k t p = (Tree.node cl ck cv cbf cr, q)
      ∧ ((ck, cv) ∈ inorder t)
      ∧ (ck = k ∨ (k < ck ∧ cl = Tree.leaf) ∨ (ck < k ∧ cr = Tree.leaf)) := by
  intro t
  induction t with
  | leaf => intro h; exact absurd rfl h
  | node l ky v bf r ihl ihr =>
      intro _ p
      by_cases h1 : k < ky
      · cases l with
        | leaf =>
            refine ⟨Tree.leaf, ky, v, bf, r, p, search_go_lt_stop h1, ?_, ?_⟩
            · simp [inorder]
            · exact Or.inr (Or.inl ⟨h1, rfl⟩)
        | node a b c d e =>
            obtain ⟨cl, ck, cv, cbf, cr, q, heq, hmem, halt⟩ :=
              ihl (by simp) (Path.inLeft ky v bf r p)
            refine ⟨cl, ck, cv, cbf, cr, q, ?_, ?_, halt⟩
            · rw [search_go_lt_go h1]; exact heq
            · show (ck, cv) ∈ inorder (Tree.node a b c d e) ++ (ky, v) :: inorder r
              exact List.mem_append.mpr (Or.inl hmem)
      · by_cases h2 : ky < k
        · cases r with
          | leaf =>
              refine ⟨l, ky, v, bf, Tree.leaf, p, search_go_gt_stop h1 h2, ?_, ?_⟩
              · simp [inorder]
              · exact Or.inr (Or.inr ⟨h2, rfl⟩)
          | node a b c d e =>
              obtain ⟨cl, ck, cv, cbf, cr, q, heq, hmem, halt⟩ :=
                ihr (by simp) (Path.inRight l ky v bf p)
              refine ⟨cl, ck, cv, cbf, cr, q, ?_, ?_, halt⟩
              · rw [search_go_gt_go h1 h2]; exact heq
              · show (ck, cv) ∈ inorder l ++ (ky, v) :: inorder (Tree.node a b c d e)
                exact List.mem_append.mpr (Or.inr (List.mem_cons_of_mem _ hmem))
        · have hk : ky = k := Nat.le_antisymm (Nat.not_lt.mp h1) (Nat.not_lt.mp h2)
          refine ⟨l, ky, v, bf, r, p, search_go_found h1 h2, ?_, Or.inl hk⟩
          simp [inorder]

/-- Claim C9: get is non-mutating. get is built from _node_search, which only
walks child pointers; plugging the location it returns back together yields
exactly the tree it was given, so the tree (structure, keys, values, balance
factors, root) after a get call is identical to the tree before it. -/
theorem claim_C9_get_non_mutating : ∀ (t : Tree) (k : Nat),
    reconstruct (node_search t k) = t := by
  intro t k
  cases t with
  | leaf => rfl
  | node a b c d e =>
      show plug (search_go k (Tree.node a b c d e) Path.top).1
        (search_go k (Tree.node a b c d e) Path.top).2 = Tree.node a b c d e
      exact search_go_plug k (Tree.node a b c d e) Path.top

/-- Claim C8: a left rotation at a node N with right child R makes R the new
subtree root, makes N R's left child, moves R's former left child to N's
right slot, returns the new subtree root (reattachment to the grandparent is
the plug done by every caller), and preserves the in-order sequence. -/
theorem claim_C8_left_rotation : ∀ (l : Tree) (k v : Nat) (bf : Int) (rl : Tree)
    (rk rv : Nat) (rbf : Int) (rr : Tree),
    left_rotate (Tree.node l k v bf (Tree.node rl rk rv rbf rr))
      = some (Tree.node (Tree.node l k v (if bf = 0 then 1 else 0) rl) rk rv
          (if bf = 0 then -1 else 0) rr)
    ∧ inorder (Tree.node (Tree.node l k v (if bf = 0 then 1 else 0) rl) rk rv
          (if bf = 0 then -1 else 0) rr)
        = inorder (Tree.node l k v bf (Tree.node rl rk rv rbf rr)) := by
  intro l k v bf rl rk rv rbf rr
  by_cases h : bf = 0 <;> simp [left_rotate, h, inorder]

/-- Claim C1 (code bug): the AVL balance invariant does not survive every
insert/remove sequence.  After insert 1, insert 2, remove 2 the root keeps a
stale balance factor (the delete retrace neither zeroes the subtree root nor,
here, has any ancestor to fix), and two further inserts then leave a tree in
which the node with key 3 has left subtree height 2 and right subtree height
0. -/
theorem claim_C1_avl_invariant_violated :
    run [Op.ins 1 1, Op.ins 2 2, Op.del 2, Op.ins 3 3, Op.ins 2 2]
      = some (Tree.node (Tree.node Tree.leaf 1 1 (-1) (Tree.node Tree.leaf 2 2 0 Tree.leaf))
          3 3 1 Tree.leaf)
    ∧ is_avl (Tree.node (Tree.node Tree.leaf 1 1 (-1) (Tree.node Tree.leaf 2 2 0 Tree.leaf))
          3 3 1 Tree.leaf) = false := by
  exact ⟨by decide, by decide⟩

/-- Claim C3 (code bug): balance factors are not kept exact.  After insert 1,
insert 2, remove 2 the lone remaining node stores balance_factor -1 although
both its subtrees are empty: _retrace_deletion enters its fall-through branch
(old factor -1, change +1) without ever writing the subtree root's balance
factor, and the root has no ancestors to walk. -/
theorem claim_C3_balance_factor_stale :
    run [Op.ins 1 1, Op.ins 2 2, Op.del 2] = some (Tree.node Tree.leaf 1 1 (-1) Tree.leaf)
    ∧ balance_factors_exact (Tree.node Tree.leaf 1 1 (-1) Tree.leaf) = false := by
  exact ⟨by decide, by decide⟩

/-- Claim C4 (code bug): the remove/lookup round trip can never finish,
because remove itself crashes.  Inserting 1, 2, 4, 3 builds a perfectly
valid AVL tree (exact balance factors), yet remove 2 dereferences a null
pointer: the two-child case detaches the in-order successor 3 first and only
then asks successor->is_left_child(), which now reports false, so
_retrace_deletion is entered with the wrong side delta and reads
left_child->balance_factor of a node whose left child is null
(avltree.h:409). -/
theorem claim_C4_remove_hits_null_deref :
    run [Op.ins 1 1, Op.ins 2 2, Op.ins 4 4, Op.ins 3 3]
      = some (Tree.node (Tree.node Tree.leaf 1 1 0 Tree.leaf) 2 2 (-1)
          (Tree.node (Tree.node Tree.leaf 3 3 0 Tree.leaf) 4 4 1 Tree.leaf))
    ∧ is_avl (Tree.node (Tree.node Tree.leaf 1 1 0 Tree.leaf) 2 2 (-1)
          (Tree.node (Tree.node Tree.leaf 3 3 0 Tree.leaf) 4 4 1 Tree.leaf)) = true
    ∧ balance_factors_exact (Tree.node (Tree.node Tree.leaf 1 1 0 Tree.leaf) 2 2 (-1)
          (Tree.node (Tree.node Tree.leaf 3 3 0 Tree.leaf) 4 4 1 Tree.leaf)) = true
    ∧ remove (Tree.node (Tree.node Tree.leaf 1 1 0 Tree.leaf) 2 2 (-1)
          (Tree.node (Tree.node Tree.leaf 3 3 0 Tree.leaf) 4 4 1 Tree.leaf)) 2 = none := by
  exact ⟨by decide, by decide, by decide, by decide⟩

/-- Claim C5 (code bug): after the rotation performed when the height-loss
delta would overshoot balance, _retrace_deletion returns unconditionally
(avltree.h:433) instead of continuing upward.  Concretely: the inserts below
build a tree with exact balance factors whose left subtree is
2[1, 3[., 4]]; removing 1 applies delta -1 at node 2 (factor -1, overshoot),
left-rotates that subtree to 3[2, 4] — which shrinks the subtree height from
3 to 2 — and stops, so the root keeps balance factor +1 although its two
subtrees now both have height 2. -/
theorem claim_C5_retrace_stops_after_rotation :
    run [Op.ins 1 1, Op.ins 2 2, Op.ins 3 3, Op.ins 5 5, Op.ins 7 7, Op.ins 6 6, Op.ins 4 4]
      = some (Tree.node
          (Tree.node (Tree.node Tree.leaf 1 1 0 Tree.leaf) 2 2 (-1)
            (Tree.node Tree.leaf 3 3 (-1) (Tree.node Tree.leaf 4 4 0 Tree.leaf)))
          5 5 1
          (Tree.node (Tree.node Tree.leaf 6 6 0 Tree.leaf) 7 7 1 Tree.leaf))
    ∧ balance_factors_exact (Tree.node
          (Tree.node (Tree.node Tree.leaf 1 1 0 Tree.leaf) 2 2 (-1)
            (Tree.node Tree.leaf 3 3 (-1) (Tree.node Tree.leaf 4 4 0 Tree.leaf)))
          5 5 1
          (Tree.node (Tree.node Tree.leaf 6 6 0 Tree.leaf) 7 7 1 Tree.leaf)) = true
    ∧ remove (Tree.node
          (Tree.node (Tree.node Tree.leaf 1 1 0 Tree.leaf) 2 2 (-1)
            (Tree.node Tree.leaf 3 3 (-1) (Tree.node Tree.leaf 4 4 0 Tree.leaf)))
          5 5 1
          (Tree.node (Tree.node Tree.leaf 6 6 0 Tree.leaf) 7 7 1 Tree.leaf)) 1
        = some (Tree.node
          (Tree.node (Tree.node Tree.leaf 2 2 0 Tree.leaf) 3 3 0
            (Tree.node Tree.leaf 4 4 0 Tree.leaf))
          5 5 1
          (Tree.node (Tree.node Tree.leaf 6 6 0 Tree.leaf) 7 7 1 Tree.leaf))
    ∧ balance_factors_exact (Tree.node
          (Tree.node (Tree.node Tree.leaf 2 2 0 Tree.leaf) 3 3 0
            (Tree.node Tree.leaf 4 4 0 Tree.leaf))
          5 5 1
          (Tree.node (Tree.node Tree.leaf 6 6 0 Tree.leaf) 7 7 1 Tree.leaf)) = false := by
  exact ⟨by decide, by decide, by decide, by decide⟩


/-- Keys are the first components of the in-order enumeration. -/
theorem keyList_def (t : Tree) : keyList t = (inorder t).map Prod.fst := rfl

/-- Claim C6: removing an absent key is a no-op — remove returns before
touching anything — and hence removing it twice in a row leaves the tree
(structure, keys, values, balance factors) exactly as it was. -/
theorem claim_C6_remove_absent_noop : ∀ (t : Tree) (k : Nat), k ∉ keyList t →
    remove t k = some t ∧ (remove t k).bind (fun u => remove u k) = some t := by
  intro t k hk
  have hrem : remove t k = some t := by
    cases t with
    | leaf => rfl
    | node a b c d e =>
        obtain ⟨cl, ck, cv, cbf, cr, q, hs, hmem, -⟩ :=
          search_shape k (Tree.node a b c d e) (by simp) Path.top
        have hck : ck ≠ k := by
          intro h
          exact hk (by simpa [keyList_def, h] using List.mem_map_of_mem Prod.fst hmem)
        simp only [remove, hs]
        rw [if_pos hck]
  exact ⟨hrem, by rw [hrem]; simpa using hrem⟩

/-- Claim C10: looking up an absent key yields an optional whose has_value()
is false and whose value() still returns the default-constructed V (0 at
V = Nat) — total, no trap. -/
theorem claim_C10_get_absent_default : ∀ (t : Tree) (k : Nat), k ∉ keyList t →
    get t k = Opt.none_ ∧ (get t k).has_value = false ∧ (get t k).val = 0 := by
  intro t k hk
  have hget : get t k = Opt.none_ := by
    cases t with
    | leaf => rfl
    | node a b c d e =>
        obtain ⟨cl, ck, cv, cbf, cr, q, hs, hmem, -⟩ :=
          search_shape k (Tree.node a b c d e) (by simp) Path.top
        have hck : k ≠ ck := by
          intro h
          exact hk (by simpa [keyList_def, h] using List.mem_map_of_mem Prod.fst hmem)
        simp only [get, node_search, hs]
        rw [if_neg hck]
  exact ⟨hget, by rw [hget]; rfl, by rw [hget]; rfl⟩

/-- Witness for claim C6 at a concrete tree and key. -/
theorem claim_C6_witness :
    (2 ∉ keyList (Tree.node Tree.leaf 1 1 0 Tree.leaf))
    ∧ (remove (Tree.node Tree.leaf 1 1 0 Tree.leaf) 2
          = some (Tree.node Tree.leaf 1 1 0 Tree.leaf)
        ∧ (remove (Tree.node Tree.leaf 1 1 0 Tree.leaf) 2).bind (fun u => remove u 2)
          = some (Tree.node Tree.leaf 1 1 0 Tree.leaf)) :=
  ⟨by decide, claim_C6_remove_absent_noop (Tree.node Tree.leaf 1 1 0 Tree.leaf) 2 (by decide)⟩

/-- Witness for claim C10 at a concrete tree and key. -/
theorem claim_C10_witness :
    (7 ∉ keyList (Tree.node Tree.leaf 1 5 0 Tree.leaf))
    ∧ (get (Tree.node Tree.leaf 1 5 0 Tree.leaf) 7 = Opt.none_
        ∧ (get (Tree.node Tree.leaf 1 5 0 Tree.leaf) 7).has_value = false
        ∧ (get (Tree.node Tree.leaf 1 5 0 Tree.leaf) 7).val = 0) :=
  ⟨by decide, claim_C10_get_absent_default (Tree.node Tree.leaf 1 5 0 Tree.leaf) 7 (by decide)⟩


/-! ### Rotations preserve the in-order sequence -/

theorem left_rotate_inorder {t t2 : Tree} (h : left_rotate t = some t2) :
    inorder t2 = inorder t := by
  match t with
  | Tree.node l k v bf (Tree.node rl rk rv rbf rr) =>
      by_cases hbf : bf = 0 <;>
        · simp only [left_rotate, hbf, if_true, if_false, reduceIte, Option.some.injEq] at h
          subst h
          simp [inorder]
  | Tree.leaf => simp [left_rotate] at h
  | Tree.node l k v bf Tree.leaf => simp [left_rotate] at h

theorem right_rotate_inorder {t t2 : Tree} (h : right_rotate t = some t2) :
    inorder t2 = inorder t := by
  match t with
  | Tree.node (Tree.node ll lk lv lbf lr) k v bf r =>
      by_cases hbf : bf = 0 <;>
        · simp only [right_rotate, hbf, if_true, if_false, reduceIte, Option.some.injEq] at h
          subst h
          simp [inorder]
  | Tree.leaf => simp [right_rotate] at h
  | Tree.node Tree.leaf k v bf r => simp [right_rotate] at h

theorem left_right_rotate_inorder {t t2 : Tree} (h : left_right_rotate t = some t2) :
    inorder t2 = inorder t := by
  match t with
  | Tree.leaf => simp [left_right_rotate] at h
  | Tree.node l k v bf r =>
      simp only [left_right_rotate, Option.bind_eq_some] at h
      obtain ⟨l2, hl2, hr⟩ := h
      calc inorder t2 = inorder (Tree.node l2 k v bf r) := right_rotate_inorder hr
        _ = inorder (Tree.node l k v bf r) := by
            simp [inorder, left_rotate_inorder hl2]

theorem right_left_rotate_inorder {t t2 : Tree} (h : right_left_rotate t = some t2) :
    inorder t2 = inorder t := by
  match t with
  | Tree.leaf => simp [right_left_rotate] at h
  | Tree.node l k v bf r =>
      simp only [right_left_rotate, Option.bind_eq_some] at h
      obtain ⟨r2, hr2, hl⟩ := h
      calc inorder t2 = inorder (Tree.node l k v bf r2) := left_rotate_inorder hl
        _ = inorder (Tree.node l k v bf r) := by
            simp [inorder, right_rotate_inorder hr2]

/-! ### Retrace walks only update balance factors and rotate, so they
preserve the in-order sequence of the rebuilt tree -/

theorem retrace_insertion_inorder : ∀ (p : Path) (cur t2 : Tree),
    retrace_insertion cur p = some t2 → inorder t2 = inorder (plug cur p) := by
  intro p
  induction p with
  | top =>
      intro cur t2 h
      simp only [retrace_insertion, Option.some.injEq] at h
      subst h; rfl
  | inLeft k v bf r p ih =>
      intro cur t2 h
      show inorder t2 = inorder (plug (Tree.node cur k v bf r) p)
      simp only [retrace_insertion] at h
      split_ifs at h with h1 h2 h3
      · rw [Option.map_eq_some'] at h
        obtain ⟨t3, h3r, h4⟩ := h
        subst h4
        rw [inorder_plug, inorder_plug, left_right_rotate_inorder h3r]
      · rw [Option.map_eq_some'] at h
        obtain ⟨t3, h3r, h4⟩ := h
        subst h4
        rw [inorder_plug, inorder_plug, right_rotate_inorder h3r]
      · rw [Option.some.injEq] at h
        subst h
        rw [inorder_plug, inorder_plug]
        simp [inorder]
      · rw [ih _ _ h, inorder_plug, inorder_plug]
        simp [inorder]
  | inRight l k v bf p ih =>
      intro cur t2 h
      show inorder t2 = inorder (plug (Tree.node l k v bf cur) p)
      simp only [retrace_insertion] at h
      split_ifs at h with h1 h2 h3
      · rw [Option.map_eq_some'] at h
        obtain ⟨t3, h3r, h4⟩ := h
        subst h4
        rw [inorder_plug, inorder_plug, right_left_rotate_inorder h3r]
      · rw [Option.map_eq_some'] at h
        obtain ⟨t3, h3r, h4⟩ := h
        subst h4
        rw [inorder_plug, inorder_plug, left_rotate_inorder h3r]
      · rw [Option.some.injEq] at h
        subst h
        rw [inorder_plug, inorder_plug]
        simp [inorder]
      · rw [ih _ _ h, inorder_plug, inorder_plug]
        simp [inorder]

theorem retrace_deletion_loop_inorder : ∀ (p : Path) (cur t2 : Tree),
    retrace_deletion_loop cur p = some t2 → inorder t2 = inorder (plug cur p) := by
  intro p
  induction p with
  | top =>
      intro cur t2 h
      simp only [retrace_deletion_loop, Option.some.injEq] at h
      subst h; rfl
  | inLeft k v bf r p ih =>
      intro cur t2 h
      show inorder t2 = inorder (plug (Tree.node cur k v bf r) p)
      simp only [retrace_deletion_loop] at h
      split_ifs at h with h1 h2 h3
      · rw [Option.map_eq_some'] at h
        obtain ⟨t3, h3r, h4⟩ := h
        subst h4
        rw [inorder_plug, inorder_plug, left_rotate_inorder h3r]
      · rw [Option.map_eq_some'] at h
        obtain ⟨t3, h3r, h4⟩ := h
        subst h4
        rw [inorder_plug, inorder_plug, right_left_rotate_inorder h3r]
      · rw [Option.some.injEq] at h
        subst h
        rw [inorder_plug, inorder_plug]
        simp [inorder]
      · rw [ih _ _ h, inorder_plug, inorder_plug]
        simp [inorder]
  | inRight l k v bf p ih =>
      intro cur t2 h
      show inorder t2 = inorder (plug (Tree.node l k v bf cur) p)
      simp only [retrace_deletion_loop] at h
      split_ifs at h with h1 h2 h3
      · rw [Option.map_eq_some'] at h
        obtain ⟨t3, h3r, h4⟩ := h
        subst h4
        rw [inorder_plug, inorder_plug, right_rotate_inorder h3r]
      · rw [Option.map_eq_some'] at h
        obtain ⟨t3, h3r, h4⟩ := h
        subst h4
        rw [inorder_plug, inorder_plug, left_right_rotate_inorder h3r]
      · rw [Option.some.injEq] at h
        subst h
        rw [inorder_plug, inorder_plug]
        simp [inorder]
      · rw [ih _ _ h, inorder_plug, inorder_plug]
        simp [inorder]

theorem retrace_deletion_inorder {cur : Tree} {p : Path} {change : Int} {t2 : Tree}
    (h : retrace_deletion cur p change = some t2) : inorder t2 = inorder (plug cur p) := by
  match cur with
  | Tree.leaf => simp [retrace_deletion] at h
  | Tree.node l k v bf r =>
      simp only [retrace_deletion] at h
      split_ifs at h with h1 h2 h3
      · rw [Option.some.injEq] at h
        subst h
        rw [inorder_plug, inorder_plug]
        simp [inorder]
      · -- overshoot, change = 1: rotation on the left side then stop
        split at h
        · exact absurd h (by simp)
        · split_ifs at h with h4
          · rw [Option.map_eq_some'] at h
            obtain ⟨t3, h3r, hh⟩ := h
            subst hh
            rw [inorder_plug, inorder_plug, right_rotate_inorder h3r]
          · rw [Option.map_eq_some'] at h
            obtain ⟨t3, h3r, hh⟩ := h
            subst hh
            rw [inorder_plug, inorder_plug, left_right_rotate_inorder h3r]
      · -- overshoot, change ≠ 1: rotation on the right side then stop
        split at h
        · exact absurd h (by simp)
        · split_ifs at h with h4
          · rw [Option.map_eq_some'] at h
            obtain ⟨t3, h3r, hh⟩ := h
            subst hh
            rw [inorder_plug, inorder_plug, left_rotate_inorder h3r]
          · rw [Option.map_eq_some'] at h
            obtain ⟨t3, h3r, hh⟩ := h
            subst hh
            rw [inorder_plug, inorder_plug, right_left_rotate_inorder h3r]
      · exact retrace_deletion_loop_inorder p _ _ h


/-! ### List-level helpers about strictly increasing key/value lists -/

theorem sorted_kv_middle {A B C D : List (Nat × Nat)} {m : Nat × Nat}
    (h : sorted_kv (A ++ (B ++ m :: C) ++ D)) :
    (∀ b ∈ B, b.1 < m.1) ∧ (∀ c ∈ C, m.1 < c.1) := by
  have hsub : (B ++ m :: C).Sublist (A ++ (B ++ m :: C) ++ D) := by
    rw [List.append_assoc]
    exact (List.sublist_append_left (B ++ m :: C) D).trans
      (List.sublist_append_right A ((B ++ m :: C) ++ D))
  have h2 : List.Pairwise (fun a b => a.1 < b.1) (B ++ m :: C) := List.Pairwise.sublist hsub h
  rw [List.pairwise_append] at h2
  obtain ⟨-, hmc, hcross⟩ := h2
  rw [List.pairwise_cons] at hmc
  exact ⟨fun b hb => hcross b hb m (List.mem_cons_self m C), fun c hc => hmc.1 c hc⟩

theorem sorted_kv_insert_mid {A B : List (Nat × Nat)} {k v : Nat}
    (h : sorted_kv (A ++ B)) (hA : ∀ a ∈ A, a.1 < k) (hB : ∀ b ∈ B, k < b.1) :
    sorted_kv (A ++ (k, v) :: B) := by
  unfold sorted_kv at h ⊢
  rw [List.pairwise_append] at h
  obtain ⟨hpA, hpB, hcross⟩ := h
  rw [List.pairwise_append]
  refine ⟨hpA, ?_, ?_⟩
  · rw [List.pairwise_cons]
    exact ⟨fun b hb => hB b hb, hpB⟩
  · intro a ha b hb
    rcases List.mem_cons.mp hb with hb1 | hb2
    · subst hb1; exact hA a ha
    · exact hcross a ha b hb2

theorem sorted_kv_set_value {A B : List (Nat × Nat)} {k v w : Nat}
    (h : sorted_kv (A ++ (k, v) :: B)) : sorted_kv (A ++ (k, w) :: B) := by
  unfold sorted_kv at h ⊢
  rw [List.pairwise_append] at h ⊢
  obtain ⟨hpA, hpB, hcross⟩ := h
  rw [List.pairwise_cons] at hpB ⊢
  refine ⟨hpA, ⟨hpB.1, hpB.2⟩, ?_⟩
  intro a ha b hb
  rcases List.mem_cons.mp hb with hb1 | hb2
  · subst hb1; exact hcross a ha (k, v) (List.mem_cons_self _ _)
  · exact hcross a ha b (List.mem_cons_of_mem _ hb2)

theorem sorted_kv_mem_unique {l : List (Nat × Nat)} (h : sorted_kv l) {k a b : Nat}
    (ha : (k, a) ∈ l) (hb : (k, b) ∈ l) : a = b := by
  induction l with
  | nil => cases ha
  | cons x xs ih =>
      rw [sorted_kv, List.pairwise_cons] at h
      rcases List.mem_cons.mp ha with ha1 | ha2 <;> rcases List.mem_cons.mp hb with hb1 | hb2
      · rw [← ha1] at hb1; exact (Prod.mk.injEq _ _ _ _ ▸ hb1).2.symm
      · exact absurd (h.1 (k, b) hb2) (by rw [← ha1]; simp)
      · exact absurd (h.1 (k, a) ha2) (by rw [← hb1]; simp)
      · exact ih h.2 ha2 hb2

/-- Membership in the keys of a node splits into the three regions. -/
theorem mem_keys_node {k ky v : Nat} {l r : Tree} {bf : Int}
    (h : k ∈ (inorder (Tree.node l ky v bf r)).map Prod.fst) :
    k ∈ (inorder l).map Prod.fst ∨ k = ky ∨ k ∈ (inorder r).map Prod.fst := by
  have h2 : k ∈ (inorder l).map Prod.fst ++ ky :: (inorder r).map Prod.fst := by
    simpa [inorder, List.map_append] using h
  rcases List.mem_append.mp h2 with h3 | h3
  · exact Or.inl h3
  · rcases List.mem_cons.mp h3 with h4 | h4
    · exact Or.inr (Or.inl h4)
    · exact Or.inr (Or.inr h4)

/-- First components of members bound the key from the map side. -/
theorem mem_map_fst {k : Nat} {L : List (Nat × Nat)} (h : k ∈ L.map Prod.fst) :
    ∃ w, (k, w) ∈ L := by
  obtain ⟨y, hy, hyk⟩ := List.mem_map.mp h
  refine ⟨y.2, ?_⟩
  rw [← hyk]
  simpa using hy

/-- Master lemma about _node_search on a BST-ordered tree sitting in a
context whose keys are compatible with the searched key: the search keeps
the context compatible, finds the key when it is present, and when it stops
elsewhere the whole stopped-at subtree lies on one side of the key. -/
theorem search_sorted (k : Nat) : ∀ (t : Tree) (p : Path),
    sorted_kv (inorder (plug t p)) →
    (∀ x ∈ path_left p, x.1 < k) →
    (∀ y ∈ path_right p, k < y.1) →
    (∀ x ∈ path_left (search_go k t p).2, x.1 < k)
    ∧ (∀ y ∈ path_right (search_go k t p).2, k < y.1)
    ∧ (k ∈ (inorder t).map Prod.fst → key_of (search_go k t p).1 = k)
    ∧ (k < key_of (search_go k t p).1 → ∀ y ∈ inorder (search_go k t p).1, k < y.1)
    ∧ (key_of (search_go k t p).1 < k → ∀ x ∈ inorder (search_go k t p).1, x.1 < k) := by
  intro t
  induction t with
  | leaf =>
      intro p hs hL hR
      refine ⟨hL, hR, ?_, ?_, ?_⟩ <;> simp [search_go, inorder, key_of]
  | node l ky v bf r ihl ihr =>
      intro p hs hL hR
      have hdec : inorder (plug (Tree.node l ky v bf r) p)
          = path_left p ++ (inorder l ++ (ky, v) :: inorder r) ++ path_right p := by
        rw [inorder_plug]; rfl
      have hmid := sorted_kv_middle (A := path_left p) (B := inorder l) (C := inorder r)
        (D := path_right p) (m := (ky, v)) (by rw [← hdec]; exact hs)
      have hlky : ∀ b ∈ inorder l, b.1 < ky := hmid.1
      have hkyr : ∀ c ∈ inorder r, ky < c.1 := hmid.2
      by_cases h1 : k < ky
      · cases l with
        | leaf =>
            rw [search_go_lt_stop h1]
            refine ⟨hL, hR, ?_, ?_, ?_⟩
            · intro hk
              rcases mem_keys_node hk with hk1 | hk2 | hk3
              · simp [inorder] at hk1
              · omega
              · obtain ⟨w, hw⟩ := mem_map_fst hk3
                exact absurd (hkyr (k, w) hw) (by omega)
            · intro _ y hy
              have hy2 : y ∈ (ky, v) :: inorder r := by simpa [inorder] using hy
              rcases List.mem_cons.mp hy2 with hy3 | hy3
              · subst hy3; exact h1
              · exact Nat.lt_trans h1 (hkyr y hy3)
            · intro hlt
              exact absurd hlt (by simp only [key_of]; omega)
        | node a b c d e =>
            rw [search_go_lt_go h1]
            have hR2 : ∀ y ∈ path_right (Path.inLeft ky v bf r p), k < y.1 := by
              intro y hy
              have hy2 : y ∈ (ky, v) :: (inorder r ++ path_right p) := hy
              rcases List.mem_cons.mp hy2 with hy3 | hy3
              · subst hy3; exact h1
              · rcases List.mem_append.mp hy3 with hy4 | hy4
                · exact Nat.lt_trans h1 (hkyr y hy4)
                · exact hR y hy4
            have hres := ihl (Path.inLeft ky v bf r p) hs hL hR2
            refine ⟨hres.1, hres.2.1, ?_, hres.2.2.2.1, hres.2.2.2.2⟩
            intro hk
            apply hres.2.2.1
            rcases mem_keys_node hk with hk1 | hk2 | hk3
            · exact hk1
            · omega
            · obtain ⟨w, hw⟩ := mem_map_fst hk3
              exact absurd (hkyr (k, w) hw) (by omega)
      · by_cases h2 : ky < k
        · cases r with
          | leaf =>
              rw [search_go_gt_stop h1 h2]
              refine ⟨hL, hR, ?_, ?_, ?_⟩
              · intro hk
                rcases mem_keys_node hk with hk1 | hk2 | hk3
                · obtain ⟨w, hw⟩ := mem_map_fst hk1
                  exact absurd (hlky (k, w) hw) (by omega)
                · omega
                · simp [inorder] at hk3
              · intro hlt
                exact absurd hlt (by simp only [key_of]; omega)
              · intro _ x hx
                have hx2 : x ∈ inorder l ++ [(ky, v)] := by simpa [inorder] using hx
                rcases List.mem_append.mp hx2 with hx3 | hx3
                · exact Nat.lt_trans (hlky x hx3) h2
                · have : x = (ky, v) := by simpa using hx3
                  subst this; exact h2
          | node a b c d e =>
              rw [search_go_gt_go h1 h2]
              have hL2 : ∀ x ∈ path_left (Path.inRight l ky v bf p), x.1 < k := by
                intro x hx
                have hx2 : x ∈ (path_left p ++ inorder l) ++ [(ky, v)] := by
                  simpa [path_left, List.append_assoc] using hx
                rcases List.mem_append.mp hx2 with hx3 | hx3
                · rcases List.mem_append.mp hx3 with hx4 | hx4
                  · exact hL x hx4
                  · exact Nat.lt_trans (hlky x hx4) h2
                · have : x = (ky, v) := by simpa using hx3
                  subst this; exact h2
              have hres := ihr (Path.inRight l ky v bf p) hs hL2 hR
              refine ⟨hres.1, hres.2.1, ?_, hres.2.2.2.1, hres.2.2.2.2⟩
              intro hk
              apply hres.2.2.1
              rcases mem_keys_node hk with hk1 | hk2 | hk3
              · obtain ⟨w, hw⟩ := mem_map_fst hk1
                exact absurd (hlky (k, w) hw) (by omega)
              · omega
              · exact hk3
        · have hky : ky = k := by omega
          rw [search_go_found h1 h2]
          refine ⟨hL, hR, fun _ => by simp [key_of, hky], ?_, ?_⟩
          · intro hlt; exact absurd hlt (by simp [key_of, hky])
          · intro hlt; exact absurd hlt (by simp [key_of, hky])


/-! ### insert keeps the in-order sequence strictly increasing -/

theorem insert_sorted {t t2 : Tree} {k v : Nat} (hs : sorted_kv (inorder t))
    (h : insert t k v = some t2) : sorted_kv (inorder t2) := by
  cases t with
  | leaf =>
      simp only [insert, Option.some.injEq] at h
      subst h
      simp [sorted_kv, inorder]
  | node a b c d e =>
      obtain ⟨cl, ck, cv, cbf, cr, q, hseq, hmem, halt⟩ :=
        search_shape k (Tree.node a b c d e) (by simp) Path.top
      have hplug : plug (Tree.node cl ck cv cbf cr) q = Tree.node a b c d e := by
        have h2 := search_go_plug k (Tree.node a b c d e) Path.top
        rw [hseq] at h2
        exact h2
      have hsth := search_sorted k (Tree.node a b c d e) Path.top hs
        (by simp [path_left]) (by simp [path_right])
      rw [hseq] at hsth
      obtain ⟨hG1, hG2, hG3, hG4, hG5⟩ := hsth
      have hs2 : sorted_kv (inorder (plug (Tree.node cl ck cv cbf cr) q)) := by
        rw [hplug]; exact hs
      simp only [insert, hseq] at h
      by_cases hck : ck = k
      · rw [if_pos hck] at h
        rw [Option.some.injEq] at h
        subst h
        have hfrom : inorder (plug (Tree.node cl ck cv cbf cr) q)
            = (path_left q ++ inorder cl) ++ (ck, cv) :: (inorder cr ++ path_right q) := by
          rw [inorder_plug]; simp [inorder, List.append_assoc]
        have hto : inorder (plug (Tree.node cl ck v cbf cr) q)
            = (path_left q ++ inorder cl) ++ (ck, v) :: (inorder cr ++ path_right q) := by
          rw [inorder_plug]; simp [inorder, List.append_assoc]
        rw [hto]
        rw [hfrom] at hs2
        exact sorted_kv_set_value hs2
      · rw [if_neg hck] at h
        by_cases hlt : k < ck
        · rw [if_pos hlt] at h
          have hcl : cl = Tree.leaf := by
            rcases halt with h0 | h0 | h0
            · exact absurd h0 hck
            · exact h0.2
            · omega
          subst hcl
          have hio := retrace_insertion_inorder _ _ _ h
          have hio2 : inorder t2
              = path_left q ++ (k, v) :: ((ck, cv) :: (inorder cr ++ path_right q)) := by
            rw [hio]
            show inorder (plug (Tree.node (Tree.node Tree.leaf k v 0 Tree.leaf) ck cv cbf cr) q)
              = _
            rw [inorder_plug]; simp [inorder, List.append_assoc]
          have hsAB : sorted_kv (path_left q ++ ((ck, cv) :: (inorder cr ++ path_right q))) := by
            have hfrom : inorder (plug (Tree.node Tree.leaf ck cv cbf cr) q)
                = path_left q ++ ((ck, cv) :: (inorder cr ++ path_right q)) := by
              rw [inorder_plug]; simp [inorder, List.append_assoc]
            rw [hfrom] at hs2
            exact hs2
          rw [hio2]
          refine sorted_kv_insert_mid hsAB hG1 ?_
          intro y hy
          rcases List.mem_cons.mp hy with hy1 | hy1
          · subst hy1; exact hlt
          · rcases List.mem_append.mp hy1 with hy2 | hy2
            · refine hG4 (by simpa [key_of] using hlt) y ?_
              exact List.mem_cons_of_mem _ hy2
            · exact hG2 y hy2
        · have hgt : ck < k := by omega
          rw [if_neg hlt] at h
          have hcr : cr = Tree.leaf := by
            rcases halt with h0 | h0 | h0
            · exact absurd h0 hck
            · omega
            · exact h0.2
          subst hcr
          have hio := retrace_insertion_inorder _ _ _ h
          have hio2 : inorder t2
              = ((path_left q ++ inorder cl) ++ [(ck, cv)]) ++ (k, v) :: path_right q := by
            rw [hio]
            show inorder (plug (Tree.node cl ck cv cbf (Tree.node Tree.leaf k v 0 Tree.leaf)) q)
              = _
            rw [inorder_plug]; simp [inorder, List.append_assoc]
          have hsAB : sorted_kv (((path_left q ++ inorder cl) ++ [(ck, cv)]) ++ path_right q) := by
            have hfrom : inorder (plug (Tree.node cl ck cv cbf Tree.leaf) q)
                = ((path_left q ++ inorder cl) ++ [(ck, cv)]) ++ path_right q := by
              rw [inorder_plug]; simp [inorder, List.append_assoc]
            rw [hfrom] at hs2
            exact hs2
          rw [hio2]
          refine sorted_kv_insert_mid ?_ ?_ hG2
          · exact hsAB
          · intro x hx
            rcases List.mem_append.mp hx with hx1 | hx1
            · rcases List.mem_append.mp hx1 with hx2 | hx2
              · exact hG1 x hx2
              · refine hG5 (by simpa [key_of] using hgt) x ?_
                show x ∈ inorder cl ++ (ck, cv) :: inorder Tree.leaf
                exact List.mem_append.mpr (Or.inl hx2)
            · have : x = (ck, cv) := by simpa using hx1
              subst this; exact hgt

/-! ### remove only ever deletes one pair from the in-order sequence -/

theorem leftmost_cons : ∀ (t : Tree), t ≠ Tree.leaf →
    inorder t = ((leftmost_kv t).1, (leftmost_kv t).2) :: inorder (drop_leftmost t) := by
  intro t
  induction t with
  | leaf => intro h; exact absurd rfl h
  | node l k v bf r ihl =>
      intro _
      cases l with
      | leaf => simp [inorder, leftmost_kv, drop_leftmost]
      | node a b c d e =>
          have h2 := ihl (by simp)
          show inorder (Tree.node a b c d e) ++ (k, v) :: inorder r = _
          rw [h2]
          simp [leftmost_kv, drop_leftmost, inorder]

theorem detach_inorder : ∀ (t : Tree), ∀ (ctx : Path) (pn : Tree) (q : Path),
    detach_loc t ctx = some (pn, q) →
    inorder (plug pn q) = inorder (plug (drop_leftmost t) ctx) := by
  intro t
  induction t with
  | leaf => intro ctx pn q h; simp [detach_loc] at h
  | node l k v bf r ihl =>
      intro ctx pn q h
      cases l with
      | leaf => simp [detach_loc] at h
      | node la lb lc ld le =>
          cases la with
          | leaf =>
              simp only [detach_loc, Option.some.injEq, Prod.mk.injEq] at h
              obtain ⟨h1, h2⟩ := h
              subst h1; subst h2
              rfl
          | node xa xb xc xd xe =>
              have h2 := ihl (Path.inLeft k v bf r ctx) pn q h
              rw [h2]
              rfl

theorem remove_sublist {t t2 : Tree} {k : Nat} (h : remove t k = some t2) :
    (inorder t2).Sublist (inorder t) := by
  cases t with
  | leaf =>
      simp only [remove, Option.some.injEq] at h
      subst h; exact List.Sublist.refl _
  | node a b c d e =>
      obtain ⟨cl, ck, cv, cbf, cr, q, hseq, hmem, halt⟩ :=
        search_shape k (Tree.node a b c d e) (by simp) Path.top
      have hplug0 := search_go_plug k (Tree.node a b c d e) Path.top
      rw [hseq] at hplug0
      have hplug : plug (Tree.node cl ck cv cbf cr) q = Tree.node a b c d e := hplug0
      have hT : inorder (Tree.node a b c d e)
          = path_left q ++ inorder (Tree.node cl ck cv cbf cr) ++ path_right q := by
        rw [← hplug, inorder_plug]
      clear hplug0 hmem halt
      cases cl with
      | leaf =>
          cases cr with
          | leaf =>
              cases q with
              | top =>
                  simp only [remove, hseq] at h
                  split_ifs at h with hne
                  all_goals rw [Option.some.injEq] at h; subst h
                  · exact List.Sublist.refl _
                  · exact List.nil_sublist _
              | inLeft k2 v2 bf2 r2 rest =>
                  simp only [remove, hseq] at h
                  split_ifs at h with hne
                  · rw [Option.some.injEq] at h; subst h; exact List.Sublist.refl _
                  · have hio := retrace_deletion_inorder h
                    have h2 : inorder t2
                        = path_left rest ++ (k2, v2) :: (inorder r2 ++ path_right rest) := by
                      rw [hio, inorder_plug]; simp [inorder, List.append_assoc]
                    have h3 : inorder (Tree.node a b c d e)
                        = path_left rest
                          ++ (ck, cv) :: (k2, v2) :: (inorder r2 ++ path_right rest) := by
                      rw [hT]; simp [inorder, path_left, path_right, List.append_assoc]
                    rw [h2, h3]
                    simp only [List.append_sublist_append_left]
                    exact List.sublist_cons_self _ _
              | inRight l2 k2 v2 bf2 rest =>
                  simp only [remove, hseq] at h
                  split_ifs at h with hne
                  · rw [Option.some.injEq] at h; subst h; exact List.Sublist.refl _
                  · have hio := retrace_deletion_inorder h
                    have h2 : inorder t2
                        = path_left rest ++ (inorder l2 ++ (k2, v2) :: path_right rest) := by
                      rw [hio, inorder_plug]; simp [inorder, List.append_assoc]
                    have h3 : inorder (Tree.node a b c d e)
                        = path_left rest
                          ++ (inorder l2 ++ (k2, v2) :: (ck, cv) :: path_right rest) := by
                      rw [hT]; simp [inorder, path_left, path_right, List.append_assoc]
                    rw [h2, h3]
                    simp only [List.append_sublist_append_left, List.cons_sublist_cons]
                    exact List.sublist_cons_self _ _
          | node ra rb rc rd re =>
              cases q with
              | top =>
                  simp only [remove, hseq] at h
                  split_ifs at h with hne
                  all_goals rw [Option.some.injEq] at h; subst h
                  · exact List.Sublist.refl _
                  · have h3 : inorder (Tree.node a b c d e)
                        = (ck, cv) :: inorder (Tree.node ra rb rc rd re) := by
                      rw [hT]; simp [inorder, path_left, path_right]
                    rw [h3]
                    exact List.sublist_cons_self _ _
              | inLeft k2 v2 bf2 r2 rest =>
                  simp only [remove, hseq] at h
                  split_ifs at h with hne
                  all_goals rw [Option.some.injEq] at h; subst h
                  · exact List.Sublist.refl _
                  · have h2b : inorder (plug (Tree.node (Tree.node ra rb rc rd re) k2 v2 bf2 r2) rest)
                        = path_left rest ++ (inorder (Tree.node ra rb rc rd re)
                            ++ (k2, v2) :: (inorder r2 ++ path_right rest)) := by
                      rw [inorder_plug]; simp [inorder, List.append_assoc]
                    have h3 : inorder (Tree.node a b c d e)
                        = path_left rest ++ ((ck, cv) :: inorder (Tree.node ra rb rc rd re)
                            ++ (k2, v2) :: (inorder r2 ++ path_right rest)) := by
                      rw [hT]; simp [inorder, path_left, path_right, List.append_assoc]
                    rw [h2b, h3]
                    simp only [List.append_sublist_append_left, List.cons_append]
                    exact List.sublist_cons_self _ _
              | inRight l2 k2 v2 bf2 rest =>
                  simp only [remove, hseq] at h
                  split_ifs at h with hne
                  all_goals rw [Option.some.injEq] at h; subst h
                  · exact List.Sublist.refl _
                  · have h2b : inorder (plug (Tree.node l2 k2 v2 bf2 (Tree.node ra rb rc rd re)) rest)
                        = path_left rest ++ (inorder l2
                            ++ (k2, v2) :: (inorder (Tree.node ra rb rc rd re) ++ path_right rest)) := by
                      rw [inorder_plug]; simp [inorder, List.append_assoc]
                    have h3 : inorder (Tree.node a b c d e)
                        = path_left rest ++ (inorder l2
                            ++ (k2, v2) :: ((ck, cv) :: inorder (Tree.node ra rb rc rd re)
                              ++ path_right rest)) := by
                      rw [hT]; simp [inorder, path_left, path_right, List.append_assoc]
                    rw [h2b, h3]
                    simp only [List.append_sublist_append_left, List.cons_sublist_cons,
                      List.cons_append]
                    exact List.sublist_cons_self _ _
      | node la lb lc ld le =>
          cases cr with
          | leaf =>
              cases q with
              | top =>
                  simp only [remove, hseq] at h
                  split_ifs at h with hne
                  all_goals rw [Option.some.injEq] at h; subst h
                  · exact List.Sublist.refl _
                  · have h3 : inorder (Tree.node a b c d e)
                        = inorder (Tree.node la lb lc ld le) ++ [(ck, cv)] := by
                      rw [hT]; simp [inorder, path_left, path_right]
                    rw [h3]
                    exact List.sublist_append_left _ _
              | inLeft k2 v2 bf2 r2 rest =>
                  simp only [remove, hseq] at h
                  split_ifs at h with hne
                  all_goals rw [Option.some.injEq] at h; subst h
                  · exact List.Sublist.refl _
                  · have h2b : inorder (plug (Tree.node (Tree.node la lb lc ld le) k2 v2 bf2 r2) rest)
                        = path_left rest ++ (inorder (Tree.node la lb lc ld le)
                            ++ (k2, v2) :: (inorder r2 ++ path_right rest)) := by
                      rw [inorder_plug]; simp [inorder, List.append_assoc]
                    have h3 : inorder (Tree.node a b c d e)
                        = path_left rest ++ (inorder (Tree.node la lb lc ld le)
                            ++ (ck, cv) :: (k2, v2) :: (inorder r2 ++ path_right rest)) := by
                      rw [hT]; simp [inorder, path_left, path_right, List.append_assoc]
                    rw [h2b, h3]
                    simp only [List.append_sublist_append_left]
                    exact List.sublist_cons_self _ _
              | inRight l2 k2 v2 bf2 rest =>
                  simp only [remove, hseq] at h
                  split_ifs at h with hne
                  all_goals rw [Option.some.injEq] at h; subst h
                  · exact List.Sublist.refl _
                  · have h2b : inorder (plug (Tree.node l2 k2 v2 bf2 (Tree.node la lb lc ld le)) rest)
                        = path_left rest ++ (inorder l2
                            ++ (k2, v2) :: (inorder (Tree.node la lb lc ld le) ++ path_right rest)) := by
                      rw [inorder_plug]; simp [inorder, List.append_assoc]
                    have h3 : inorder (Tree.node a b c d e)
                        = path_left rest ++ (inorder l2
                            ++ (k2, v2) :: (inorder (Tree.node la lb lc ld le)
                              ++ (ck, cv) :: path_right rest)) := by
                      rw [hT]; simp [inorder, path_left, path_right, List.append_assoc]
                    rw [h2b, h3]
                    simp only [List.append_sublist_append_left, List.cons_sublist_cons]
                    exact List.sublist_cons_self _ _
          | node rl rk rv rbf rr =>
              cases rl with
              | leaf =>
                  simp only [remove, hseq] at h
                  split_ifs at h with hne
                  · rw [Option.some.injEq] at h; subst h; exact List.Sublist.refl _
                  · have hio := retrace_deletion_inorder h
                    have h2 : inorder t2
                        = path_left q ++ (inorder (Tree.node la lb lc ld le)
                            ++ (rk, rv) :: (inorder rr ++ path_right q)) := by
                      rw [hio, inorder_plug]; simp [inorder, List.append_assoc]
                    have h3 : inorder (Tree.node a b c d e)
                        = path_left q ++ (inorder (Tree.node la lb lc ld le)
                            ++ (ck, cv) :: (rk, rv) :: (inorder rr ++ path_right q)) := by
                      rw [hT]; simp [inorder, List.append_assoc]
                    rw [h2, h3]
                    simp only [List.append_sublist_append_left]
                    exact List.sublist_cons_self _ _
              | node xa xb xc xd xe =>
                  simp only [remove, hseq] at h
                  split_ifs at h with hne
                  · rw [Option.some.injEq] at h; subst h; exact List.Sublist.refl _
                  · split at h
                    · exact absurd h (by simp)
                    · rename_i pn qq heq
                      have hio := retrace_deletion_inorder h
                      have hdi := detach_inorder _ _ _ _ heq
                      have hlc := leftmost_cons
                        (Tree.node (Tree.node xa xb xc xd xe) rk rv rbf rr) (by simp)
                      have h2 : inorder t2
                          = path_left q ++ (inorder (Tree.node la lb lc ld le)
                              ++ ((leftmost_kv (Tree.node (Tree.node xa xb xc xd xe) rk rv rbf rr)).1,
                                  (leftmost_kv (Tree.node (Tree.node xa xb xc xd xe) rk rv rbf rr)).2)
                                :: (inorder (drop_leftmost
                                      (Tree.node (Tree.node xa xb xc xd xe) rk rv rbf rr))
                                    ++ path_right q)) := by
                        rw [hio, hdi]
                        show inorder (plug (Tree.node (Tree.node la lb lc ld le) _ _ cbf
                          (drop_leftmost (Tree.node (Tree.node xa xb xc xd xe) rk rv rbf rr))) q) = _
                        rw [inorder_plug]; simp [inorder, List.append_assoc]
                      have h3 : inorder (Tree.node a b c d e)
                          = path_left q ++ (inorder (Tree.node la lb lc ld le)
                              ++ (ck, cv)
                                :: ((leftmost_kv (Tree.node (Tree.node xa xb xc xd xe) rk rv rbf rr)).1,
                                    (leftmost_kv (Tree.node (Tree.node xa xb xc xd xe) rk rv rbf rr)).2)
                                :: (inorder (drop_leftmost
                                      (Tree.node (Tree.node xa xb xc xd xe) rk rv rbf rr))
                                    ++ path_right q)) := by
                        rw [hT]
                        show path_left q ++ (inorder (Tree.node la lb lc ld le) ++ (ck, cv)
                          :: inorder (Tree.node (Tree.node xa xb xc xd xe) rk rv rbf rr))
                            ++ path_right q = _
                        rw [hlc]; simp [List.append_assoc]
                      rw [h2, h3]
                      simp only [List.append_sublist_append_left]
                      exact List.sublist_cons_self _ _

/-! ### Every reachable tree is BST-ordered -/

theorem run_from_sorted : ∀ (ops : List Op) (t t2 : Tree),
    sorted_kv (inorder t) → run_from t ops = some t2 → sorted_kv (inorder t2) := by
  intro ops
  induction ops with
  | nil =>
      intro t t2 hs h
      simp only [run_from, Option.some.injEq] at h
      subst h; exact hs
  | cons op rest ih =>
      intro t t2 hs h
      simp only [run_from] at h
      split at h
      · exact absurd h (by simp)
      · rename_i t3 hstep
        cases op with
        | ins k v => exact ih t3 t2 (insert_sorted hs hstep) h
        | del k => exact ih t3 t2 (List.Pairwise.sublist (remove_sublist hstep) hs) h

/-- Claim C2: for every tree reachable from the empty tree by insert and
remove calls (that complete), the in-order traversal of the keys is strictly
increasing — the binary-search-tree order invariant. -/
theorem claim_C2_bst_order : ∀ (ops : List Op) (t : Tree), run ops = some t →
    List.Pairwise (· < ·) (keyList t) := by
  intro ops t h
  have hs := run_from_sorted ops Tree.leaf t (by simp [sorted_kv, inorder]) h
  rw [keyList_def]
  exact List.pairwise_map.mpr hs

/-- Witness for claim C2 on a concrete run. -/
theorem claim_C2_witness :
    run [Op.ins 2 2, Op.ins 1 1, Op.ins 3 3, Op.del 1]
      = some (Tree.node Tree.leaf 2 2 (-1) (Tree.node Tree.leaf 3 3 0 Tree.leaf))
    ∧ List.Pairwise (· < ·)
        (keyList (Tree.node Tree.leaf 2 2 (-1) (Tree.node Tree.leaf 3 3 0 Tree.leaf))) :=
  ⟨by decide, claim_C2_bst_order [Op.ins 2 2, Op.ins 1 1, Op.ins 3 3, Op.del 1] _ (by decide)⟩


/-! ### Duplicate-key insertion: value overwrite only -/

theorem strip_values_plug : ∀ (p : Path) (x y : Tree),
    strip_values x = strip_values y →
    strip_values (plug x p) = strip_values (plug y p)
  | Path.top, x, y, h => h
  | Path.inLeft k v bf r p, x, y, h => by
      refine strip_values_plug p _ _ ?_
      show strip_values (Tree.node x k v bf r) = strip_values (Tree.node y k v bf r)
      simp [strip_values, h]
  | Path.inRight l k v bf p, x, y, h => by
      refine strip_values_plug p _ _ ?_
      show strip_values (Tree.node l k v bf x) = strip_values (Tree.node l k v bf y)
      simp [strip_values, h]

theorem count_nodes_strip : ∀ (t : Tree), count_nodes (strip_values t) = count_nodes t
  | Tree.leaf => rfl
  | Tree.node l _ _ _ r => by
      simp [strip_values, count_nodes, count_nodes_strip l, count_nodes_strip r]

theorem keyList_strip : ∀ (t : Tree), keyList (strip_values t) = keyList t
  | Tree.leaf => rfl
  | Tree.node l k v bf r => by
      have h1 := keyList_strip l
      have h2 := keyList_strip r
      simp only [keyList_def, inorder, strip_values, List.map_append, List.map_cons] at h1 h2 ⊢
      rw [h1, h2]

/-- On a BST-ordered tree, get finds the stored pair. -/
theorem get_mem_sorted {t : Tree} {k w : Nat} (hs : sorted_kv (inorder t))
    (hm : (k, w) ∈ inorder t) : get t k = Opt.some_ w := by
  cases t with
  | leaf => cases hm
  | node a b c d e =>
      obtain ⟨cl, ck, cv, cbf, cr, q, hseq, hmem, halt⟩ :=
        search_shape k (Tree.node a b c d e) (by simp) Path.top
      have hsth := search_sorted k (Tree.node a b c d e) Path.top hs
        (by simp [path_left]) (by simp [path_right])
      rw [hseq] at hsth
      have hck : ck = k := by
        refine hsth.2.2.1 ?_
        exact List.mem_map_of_mem Prod.fst hm
      subst hck
      have hv : cv = w := sorted_kv_mem_unique hs hmem hm
      subst hv
      simp [get, node_search, hseq]

/-- Claim C7: inserting a key that is already present only overwrites that
node's value: the tree shape, every key and every balance factor are
unchanged (strip_values equality), the node count is unchanged, lookup now
returns the new value, and exactly one node holds the key. -/
theorem claim_C7_insert_overwrite : ∀ (ops : List Op) (t : Tree) (k v : Nat),
    run ops = some t → k ∈ keyList t →
    ∃ t2, insert t k v = some t2
      ∧ strip_values t2 = strip_values t
      ∧ count_nodes t2 = count_nodes t
      ∧ get t2 k = Opt.some_ v
      ∧ (keyList t2).count k = 1 := by
  intro ops t k v hrun hkmem
  have hs : sorted_kv (inorder t) :=
    run_from_sorted ops Tree.leaf t (by simp [sorted_kv, inorder]) hrun
  cases t with
  | leaf => simp [keyList_def, inorder] at hkmem
  | node a b c d e =>
      obtain ⟨cl, ck, cv, cbf, cr, q, hseq, hmem, halt⟩ :=
        search_shape k (Tree.node a b c d e) (by simp) Path.top
      have hplug0 := search_go_plug k (Tree.node a b c d e) Path.top
      rw [hseq] at hplug0
      have hplug : plug (Tree.node cl ck cv cbf cr) q = Tree.node a b c d e := hplug0
      have hsth := search_sorted k (Tree.node a b c d e) Path.top hs
        (by simp [path_left]) (by simp [path_right])
      rw [hseq] at hsth
      have hck : ck = k := hsth.2.2.1 (by rwa [keyList_def] at hkmem)
      subst hck
      have hins : insert (Tree.node a b c d e) ck v
          = some (plug (Tree.node cl ck v cbf cr) q) := by
        simp [insert, hseq]
      refine ⟨plug (Tree.node cl ck v cbf cr) q, hins, ?_, ?_, ?_, ?_⟩
      · rw [← hplug]
        exact strip_values_plug q _ _ (by simp [strip_values])
      · have h1 : strip_values (plug (Tree.node cl ck v cbf cr) q)
            = strip_values (Tree.node a b c d e) := by
          rw [← hplug]
          exact strip_values_plug q _ _ (by simp [strip_values])
        calc count_nodes (plug (Tree.node cl ck v cbf cr) q)
            = count_nodes (strip_values (plug (Tree.node cl ck v cbf cr) q)) :=
              (count_nodes_strip _).symm
          _ = count_nodes (strip_values (Tree.node a b c d e)) := by rw [h1]
          _ = count_nodes (Tree.node a b c d e) := count_nodes_strip _
      · have hs2 : sorted_kv (inorder (plug (Tree.node cl ck v cbf cr) q)) :=
          insert_sorted hs hins
        refine get_mem_sorted hs2 ?_
        rw [inorder_plug]
        refine List.mem_append.mpr (Or.inl ?_)
        refine List.mem_append.mpr (Or.inr ?_)
        show (ck, v) ∈ inorder cl ++ (ck, v) :: inorder cr
        exact List.mem_append.mpr (Or.inr (List.mem_cons_self _ _))
      · have hs2 : sorted_kv (inorder (plug (Tree.node cl ck v cbf cr) q)) :=
          insert_sorted hs hins
        have hmm : (ck, v) ∈ inorder (plug (Tree.node cl ck v cbf cr) q) := by
          rw [inorder_plug]
          refine List.mem_append.mpr (Or.inl ?_)
          refine List.mem_append.mpr (Or.inr ?_)
          show (ck, v) ∈ inorder cl ++ (ck, v) :: inorder cr
          exact List.mem_append.mpr (Or.inr (List.mem_cons_self _ _))
        have hnd : (keyList (plug (Tree.node cl ck v cbf cr) q)).Nodup := by
          rw [keyList_def]
          exact (List.pairwise_map.mpr hs2).imp (fun h => Nat.ne_of_lt h)
        have hkm2 : ck ∈ keyList (plug (Tree.node cl ck v cbf cr) q) := by
          rw [keyList_def]
          exact List.mem_map_of_mem Prod.fst hmm
        exact List.count_eq_one_of_mem hnd hkm2

/-- Witness for claim C7 on a concrete run, key and new value. -/
theorem claim_C7_witness :
    run [Op.ins 1 1, Op.ins 2 2] = some (Tree.node Tree.leaf 1 1 (-1) (Tree.node Tree.leaf 2 2 0 Tree.leaf))
    ∧ (1 ∈ keyList (Tree.node Tree.leaf 1 1 (-1) (Tree.node Tree.leaf 2 2 0 Tree.leaf)))
    ∧ ∃ t2, insert (Tree.node Tree.leaf 1 1 (-1) (Tree.node Tree.leaf 2 2 0 Tree.leaf)) 1 9 = some t2
        ∧ strip_values t2
            = strip_values (Tree.node Tree.leaf 1 1 (-1) (Tree.node Tree.leaf 2 2 0 Tree.leaf))
        ∧ count_nodes t2
            = count_nodes (Tree.node Tree.leaf 1 1 (-1) (Tree.node Tree.leaf 2 2 0 Tree.leaf))
        ∧ get t2 1 = Opt.some_ 9
        ∧ (keyList t2).count 1 = 1 :=
  ⟨by decide, by decide,
    claim_C7_insert_overwrite [Op.ins 1 1, Op.ins 2 2]
      (Tree.node Tree.leaf 1 1 (-1) (Tree.node Tree.leaf 2 2 0 Tree.leaf)) 1 9
      (by decide) (by decide)⟩

end AvlSpec
